import Mathlib

/-!
Verification of the markdown-to-pdf repository.

The client-side upload, validation and ZIP-assembly logic is embedded from
the Vue/JS sources (`useFileUpload`, `useZipCreation`, `utils/validation`).
The server-side core (the FastAPI `app/` package: archive validation,
pagination planning, TOC convergence) is not present in the source tree;
those parts are modelled from the specification and are marked as such in
their doc comments.
-/

namespace MdToPdf

/-! ## Client upload model (`useFileUpload` in the composables source) -/

/-- A browser `File` as far as the client code inspects it: a name and a
byte size. -/
structure RawFile where
  name : String
  size : Nat
  deriving DecidableEq, Repr

/-- The client's file classification (`getFileType`): `'markdown' | 'image'
| 'unknown'`. -/
inductive FileType where
  | markdown
  | image
  | unknown
  deriving DecidableEq, Repr

/-- `MARKDOWN_EXTENSIONS = ['.md', '.markdown']` -/
def MARKDOWN_EXTENSIONS : List String := [".md", ".markdown"]

/-- `IMAGE_EXTENSIONS = ['.png', '.jpg', '.jpeg']` -/
def IMAGE_EXTENSIONS : List String := [".png", ".jpg", ".jpeg"]

/-- `MAX_FILE_SIZE = 50 * 1024 * 1024` (50 MB). -/
def MAX_FILE_SIZE : Nat := 50 * 1024 * 1024

/-- `getFileType`: `'.' + file.name.split('.').pop().toLowerCase()`, then a
membership test against the extension lists.  A JS `split` always returns a
non-empty array, so `pop` on a dotless name yields the whole name. -/
def getFileType (f : RawFile) : FileType :=
  let ext := "." ++ (((f.name.splitOn ".").getLastD f.name).toLower)
  if MARKDOWN_EXTENSIONS.contains ext then FileType.markdown
  else if IMAGE_EXTENSIONS.contains ext then FileType.image
  else FileType.unknown

/-- One element of the `files` ref: the wrapped `File`, the generated id and
the computed type (the `preview` URL is irrelevant to the logic). -/
structure FileEntry where
  file : RawFile
  id : String
  ftype : FileType
  deriving DecidableEq, Repr

/-- The entry built inside `addFiles` for one incoming file; `id` is the
random `generateFileId()` result, threaded in as data. -/
def mkEntry (f : RawFile) (id : String) : FileEntry :=
  ⟨f, id, getFileType f⟩

/-- `markdownFiles = files.filter(f => f.type === 'markdown')` -/
def markdownFiles (files : List FileEntry) : List FileEntry :=
  files.filter (fun e => e.ftype = FileType.markdown)

/-- `imageFiles = files.filter(f => f.type === 'image')` -/
def imageFiles (files : List FileEntry) : List FileEntry :=
  files.filter (fun e => e.ftype = FileType.image)

/-- `isValidFileCount = markdownFiles.length === 1` -/
def isValidFileCount (files : List FileEntry) : Bool :=
  (markdownFiles files).length = 1

/-- `totalSize = files.reduce((total, file) => total + file.file.size, 0)` -/
def totalSize (files : List FileEntry) : Nat :=
  files.foldl (fun total e => total + e.file.size) 0

/-- `isValidTotalSize = totalSize <= MAX_FILE_SIZE` -/
def isValidTotalSize (files : List FileEntry) : Bool :=
  totalSize files ≤ MAX_FILE_SIZE

/-- `addFiles(fileList)`: classify the incoming files, drop the unsupported
ones, keep at most the first new markdown file (after removing every
markdown file already held), and append all new image files. -/
def addFiles (files : List FileEntry) (incoming : List (RawFile × String)) :
    List FileEntry :=
  let newFiles := (incoming.map (fun p => mkEntry p.1 p.2)).filter
    (fun e => e.ftype ≠ FileType.unknown)
  let newMarkdownFiles := newFiles.filter (fun e => e.ftype = FileType.markdown)
  let newImageFiles := newFiles.filter (fun e => e.ftype = FileType.image)
  let files1 :=
    match newMarkdownFiles with
    | [] => files
    | m :: _ => (files.filter (fun e => e.ftype ≠ FileType.markdown)) ++ [m]
  files1 ++ newImageFiles

/-- `removeFile(id)`: `files.value = files.value.filter(f => f.id !== id)` -/
def removeFile (files : List FileEntry) (id : String) : List FileEntry :=
  files.filter (fun e => e.id ≠ id)

/-- `clearFiles()`: `files.value = []` -/
def clearFiles (_files : List FileEntry) : List FileEntry := []

/-- The result object of `validateFiles()`. -/
structure FileValidation where
  isValid : Bool
  hasMarkdown : Bool
  markdownCount : Nat
  errors : List String
  deriving DecidableEq, Repr

/-- `validateFiles()`: collect the error strings, then report
`isValid = errors.length === 0 && isValidFileCount`. -/
def validateFiles (files : List FileEntry) : FileValidation :=
  let mdCount := (markdownFiles files).length
  let errors₁ :=
    if mdCount = 0 then ["At least one markdown file is required"]
    else if mdCount > 1 then ["Only one markdown file is allowed"]
    else []
  let errors :=
    if isValidTotalSize files then errors₁
    else errors₁ ++ ["Total file size exceeds 50MB limit"]
  { isValid := errors.isEmpty && isValidFileCount files
    hasMarkdown := mdCount = 1
    markdownCount := mdCount
    errors := errors }

/-! ## ZIP assembly (`useZipCreation.createZip`) -/

/-- One entry of the JSZip archive: path and file content. -/
structure ZipEntry where
  path : String
  file : RawFile
  deriving DecidableEq, Repr

/-- JSZip's `zip.file(path, data)`: when an entry at `path` already exists
it is replaced in place (JS objects keep the original key position on
overwrite); otherwise the entry is appended. -/
def zipFile (entries : List ZipEntry) (path : String) (f : RawFile) :
    List ZipEntry :=
  if entries.any (fun e => e.path = path) then
    entries.map (fun e => if e.path = path then ZipEntry.mk path f else e)
  else
    entries ++ [ZipEntry.mk path f]

/-- `createZip(files)`: requires exactly one markdown file (otherwise
`throw new Error('Exactly one markdown file is required')`;
`markdownFiles.length === 1` is the `[m]` pattern); then
`zip.file(markdownFile.file.name, ...)` followed by
`zip.file('images/' + name, ...)` for each image, with `zip.file`'s
replace-on-duplicate-path semantics. -/
def createZip (files : List FileEntry) : Except String (List ZipEntry) :=
  match markdownFiles files with
  | [m] =>
    Except.ok ((imageFiles files).foldl
      (fun acc e => zipFile acc ("images/" ++ e.file.name) e.file)
      (zipFile [] m.file.name m.file))
  | _ => Except.error "Exactly one markdown file is required"

/-! ## Upload-state operations (the interface exposed by `useFileUpload`) -/

/-- The three mutating operations `useFileUpload` returns. -/
inductive UploadOp where
  | add (incoming : List (RawFile × String))
  | remove (id : String)
  | clear
  deriving Repr

/-- Apply one operation to the `files` state. -/
def applyOp (files : List FileEntry) : UploadOp → List FileEntry
  | UploadOp.add incoming => addFiles files incoming
  | UploadOp.remove id => removeFile files id
  | UploadOp.clear => clearFiles files

/-- Run a sequence of operations from the initial empty `files` state. -/
def runOps (ops : List UploadOp) : List FileEntry :=
  ops.foldl applyOp []

/-! ## Validation utilities (`client/src/utils/validation` sources) -/

/-- Approximation of JS `String.prototype.trim` on a character list: strip
whitespace from both ends. -/
def jsTrim (l : List Char) : List Char :=
  ((l.dropWhile Char.isWhitespace).reverse.dropWhile Char.isWhitespace).reverse

/-- The character class of `validateTitle`'s invalid-character regex
`/[<>!"\x2f\\|?*]/`. -/
def invalidTitleChar (c : Char) : Bool :=
  c = '<' || c = '>' || c = '!' || c = '"' || c = '/' || c = '\\' ||
  c = '|' || c = '?' || c = '*'

/-- `validateTitle(title)` (the string-or-null variant used by the current
`GenerationForm`): returns an error message, or `none` when the title is
valid.  A `none` input models an absent (`null`/`undefined`) title, for
which `title?.trim()` is undefined and hence falsy. -/
def validateTitle : Option (List Char) → Option String
  | none => some "Title is required"
  | some t =>
    let trimmed := jsTrim t
    if trimmed = [] then some "Title is required"
    else if trimmed.length < 1 then some "Title cannot be empty"
    else if trimmed.length > 200 then some "Title cannot exceed 200 characters"
    else if trimmed.any invalidTitleChar then
      some "Title contains invalid characters"
    else none

/-- `GenerationForm`'s `isValid` computed:
`model.value.title && titleError.value === null` (a missing or empty title
string is falsy). -/
def formIsValid (title : Option (List Char)) : Bool :=
  (match title with
   | none => false
   | some t => t ≠ []) && (validateTitle title).isNone

/-- `validateTotalSize(files, maxSize)`: sums the raw byte sizes and
compares the sum against the single bound (default 50 MB). -/
def validateTotalSize (sizes : List Nat) (maxSize : Nat := MAX_FILE_SIZE) : Bool :=
  sizes.foldl (fun sum s => sum + s) 0 ≤ maxSize

/-- `sanitizeFilename`'s safe-character class: the regex replaces every
character outside `[\w\-.]` (word characters, hyphen, dot) by `'_'`. -/
def isSafeFilenameChar (c : Char) : Bool :=
  c.isAlpha || c.isDigit || c = '_' || c = '-' || c = '.'

/-- First step of `sanitizeFilename`:
`filename.replace(/[^\w\-.]/g, '_')`. -/
def replaceUnsafe (filename : List Char) : List Char :=
  filename.map (fun c => if isSafeFilenameChar c then c else '_')

/-- The test of `sanitizeFilename`'s regex `/^[.-]/`: does the string start
with a dot or a hyphen? -/
def startsWithDotDash : List Char → Bool
  | c :: _ => c = '.' || c = '-'
  | [] => false

/-- Second step of `sanitizeFilename`: when the string starts with a dot or
a hyphen (`/^[.-]/`), prefix it with `file_`. -/
def prefixIfDotDash (l : List Char) : List Char :=
  if startsWithDotDash l then "file_".toList ++ l else l

/-- Third step of `sanitizeFilename`: an empty or single-underscore string
becomes `document.pdf`. -/
def defaultIfBlank (l : List Char) : List Char :=
  if l = [] || l = ['_'] then "document.pdf".toList else l

/-- Last step of `sanitizeFilename`: truncate to 100 characters; when the
name contains a dot, the part after the last dot is kept as the extension
and the front is cut to fit (`substring(0, n)` clamps a negative `n` to
`0`, exactly as `Nat` subtraction does). -/
def truncateTo100 (s : List Char) : List Char :=
  if s.length > 100 then
    if (s.splitOn '.').length > 1 then
      (List.intercalate ['.'] (s.splitOn '.').dropLast).take
          (100 - ((s.splitOn '.').getLastD []).length - 1) ++
        '.' :: (s.splitOn '.').getLastD []
    else
      s.take 100
  else s

/-- `sanitizeFilename(filename)`: the four steps of the source function in
order. -/
def sanitizeFilename (filename : List Char) : List Char :=
  truncateTo100 (defaultIfBlank (prefixIfDotDash (replaceUnsafe filename)))

/-! ## Server-side archive size limits -/

/-- `MAX_FILE_SIZE=52428800` (50 MB compressed) from the server
configuration. -/
def SERVER_MAX_FILE_SIZE : Nat := 52428800

/-- `MAX_EXTRACTED_SIZE=209715200` (200 MB extracted) from the server
configuration. -/
def SERVER_MAX_EXTRACTED_SIZE : Nat := 209715200

/-- Modelled from the spec: the ArchiveValidator size check (the FastAPI
`app/` package is not in the source tree).  Given the compressed archive
size and the extracted content size, validation succeeds only when the
compressed size is at most 50 MB and the extracted size at most 200 MB;
otherwise it fails with `FileTooLarge` ("either limit exceeded"). -/
def archiveSizeCheck (compressed extracted : Nat) : Bool :=
  compressed ≤ SERVER_MAX_FILE_SIZE && extracted ≤ SERVER_MAX_EXTRACTED_SIZE

/-! ## Helper lemmas -/

theorem markdownFiles_append (a b : List FileEntry) :
    markdownFiles (a ++ b) = markdownFiles a ++ markdownFiles b := by
  simp [markdownFiles]

theorem markdownFiles_of_images (l : List FileEntry)
    (h : ∀ e ∈ l, e.ftype = FileType.image) : markdownFiles l = [] := by
  simp only [markdownFiles, List.filter_eq_nil_iff]
  intro e he
  simp [h e he]

theorem markdownFiles_filter_ne (l : List FileEntry) :
    markdownFiles (l.filter (fun e => e.ftype ≠ FileType.markdown)) = [] := by
  simp only [markdownFiles, List.filter_filter, List.filter_eq_nil_iff]
  intro e _
  simp only [Bool.and_eq_true, decide_eq_true_eq, ne_eq]
  rintro ⟨h1, h2⟩
  exact absurd h1 (by simpa using h2)

theorem markdownFiles_addFiles_le (files : List FileEntry)
    (incoming : List (RawFile × String)) (h : (markdownFiles files).length ≤ 1) :
    (markdownFiles (addFiles files incoming)).length ≤ 1 := by
  unfold addFiles
  set newFiles := (incoming.map (fun p => mkEntry p.1 p.2)).filter
    (fun e => e.ftype ≠ FileType.unknown) with hnew
  set newImageFiles := newFiles.filter (fun e => e.ftype = FileType.image)
    with himg
  have himgs : markdownFiles newImageFiles = [] := by
    apply markdownFiles_of_images
    intro e he
    exact of_decide_eq_true (List.mem_filter.mp he).2
  cases hmd : newFiles.filter (fun e => e.ftype = FileType.markdown) with
  | nil =>
    simp only [hmd, markdownFiles_append, himgs, List.append_nil]
    exact h
  | cons m rest =>
    have hm : m.ftype = FileType.markdown := by
      have : m ∈ newFiles.filter (fun e => e.ftype = FileType.markdown) := by
        rw [hmd]; exact List.mem_cons_self m rest
      exact of_decide_eq_true (List.mem_filter.mp this).2
    simp only [hmd, markdownFiles_append, himgs, List.append_nil,
      markdownFiles_filter_ne, List.nil_append]
    simp [markdownFiles, hm]

theorem markdownFiles_runOps_le (ops : List UploadOp) :
    (markdownFiles (runOps ops)).length ≤ 1 := by
  suffices h : ∀ (s : List FileEntry), (markdownFiles s).length ≤ 1 →
      (markdownFiles (ops.foldl applyOp s)).length ≤ 1 by
    exact h [] (by simp [markdownFiles])
  induction ops with
  | nil => intro s hs; simpa using hs
  | cons op rest ih =>
    intro s hs
    simp only [List.foldl_cons]
    apply ih
    cases op with
    | add incoming => exact markdownFiles_addFiles_le s incoming hs
    | remove id =>
      calc (markdownFiles (removeFile s id)).length
          ≤ (markdownFiles s).length := by
            simp only [markdownFiles, removeFile, List.filter_comm]
            exact List.length_filter_le _ _
        _ ≤ 1 := hs
    | clear => simp [applyOp, clearFiles, markdownFiles]

/-! ## C1, C2, C8, C9 theorems -/

/-- C1: the client accepts an upload set only when it holds exactly one
markdown file: with zero markdown files `validateFiles` reports the
missing-markdown error and `createZip` throws, and with more than one
markdown file `validateFiles` reports the multiple-markdown error and
`createZip` throws instead of producing an archive. -/
theorem exactly_one_markdown_required (files : List FileEntry) :
    ((markdownFiles files).length = 0 →
      (validateFiles files).isValid = false ∧
      "At least one markdown file is required" ∈ (validateFiles files).errors ∧
      createZip files = Except.error "Exactly one markdown file is required") ∧
    (1 < (markdownFiles files).length →
      (validateFiles files).isValid = false ∧
      "Only one markdown file is allowed" ∈ (validateFiles files).errors ∧
      createZip files = Except.error "Exactly one markdown file is required") := by
  constructor
  · intro h0
    refine ⟨?_, ?_, ?_⟩
    · simp [validateFiles, isValidFileCount, h0]
    · simp only [validateFiles, h0]
      split <;> simp
    · have hnil : markdownFiles files = [] := List.length_eq_zero.mp h0
      rw [createZip, hnil]
  · intro h1
    have hne0 : (markdownFiles files).length ≠ 0 := by omega
    have hne1 : (markdownFiles files).length ≠ 1 := by omega
    refine ⟨?_, ?_, ?_⟩
    · simp [validateFiles, isValidFileCount, hne1]
    · simp only [validateFiles, hne0, if_false, h1, if_true, gt_iff_lt]
      split <;> simp
    · obtain ⟨a, b, t, hab⟩ : ∃ a b t, markdownFiles files = a :: b :: t := by
        cases hm : markdownFiles files with
        | nil => rw [hm] at h1; simp at h1
        | cons a rest =>
          cases rest with
          | nil => rw [hm] at h1; simp at h1
          | cons b t => exact ⟨a, b, t, rfl⟩
      rw [createZip, hab]

/-- Witness for `exactly_one_markdown_required` at concrete inputs: the
empty file set (zero markdown files) and a two-markdown file set. -/
theorem exactly_one_markdown_required_witness :
    (validateFiles []).isValid = false ∧
    createZip [] = Except.error "Exactly one markdown file is required" ∧
    (validateFiles [⟨⟨"a.md", 1⟩, "1", FileType.markdown⟩,
      ⟨⟨"b.md", 1⟩, "2", FileType.markdown⟩]).isValid = false := by
  refine ⟨((exactly_one_markdown_required []).1 (by decide)).1,
    ((exactly_one_markdown_required []).1 (by decide)).2.2,
    ((exactly_one_markdown_required
      [⟨⟨"a.md", 1⟩, "1", FileType.markdown⟩,
       ⟨⟨"b.md", 1⟩, "2", FileType.markdown⟩]).2 (by decide)).1⟩

/-- C2: an upload whose total raw size exceeds the 50 MB bound fails the
client's validation; the client-side check compares the sum of the raw
(uncompressed) file sizes against the single 50 MB bound, and the
(spec-modelled) server-side check succeeds exactly when the compressed
archive is at most 50 MB and the extracted content at most 200 MB. -/
theorem size_limit_check (files : List FileEntry) (sizes : List Nat)
    (compressed extracted : Nat) :
    (MAX_FILE_SIZE < totalSize files → (validateFiles files).isValid = false) ∧
    isValidTotalSize files = decide (totalSize files ≤ 50 * 1024 * 1024) ∧
    validateTotalSize sizes =
      decide (sizes.foldl (fun sum s => sum + s) 0 ≤ 50 * 1024 * 1024) ∧
    (archiveSizeCheck compressed extracted = true ↔
      compressed ≤ 52428800 ∧ extracted ≤ 209715200) := by
  refine ⟨?_, ?_, ?_, ?_⟩
  · intro h
    have hsz : isValidTotalSize files = false := by
      simp [isValidTotalSize]; omega
    simp only [validateFiles, hsz, if_false, Bool.false_eq_true]
    split <;> simp
  · simp [isValidTotalSize, MAX_FILE_SIZE]
  · simp [validateTotalSize, MAX_FILE_SIZE]
  · simp [archiveSizeCheck, SERVER_MAX_FILE_SIZE, SERVER_MAX_EXTRACTED_SIZE]

/-- Witness for `size_limit_check`: one oversized file fails validation. -/
theorem size_limit_check_witness :
    (validateFiles [⟨⟨"a.md", 52428801⟩, "1", FileType.markdown⟩]).isValid
      = false :=
  (size_limit_check [⟨⟨"a.md", 52428801⟩, "1", FileType.markdown⟩] [] 0 0).1
    (by decide)

/-- C8: after any sequence of `addFiles`, `removeFile` and `clearFiles`
operations on the upload state, at most one entry is of type markdown, so
the "more than one markdown" validation error is unreachable through this
interface; moreover `addFiles` keeps exactly the first markdown file of the
new batch when the batch holds one, discarding all previously held markdown
files. -/
theorem at_most_one_markdown_invariant (ops : List UploadOp)
    (s : List FileEntry) (incoming : List (RawFile × String)) :
    (markdownFiles (runOps ops)).length ≤ 1 ∧
    "Only one markdown file is allowed" ∉ (validateFiles (runOps ops)).errors ∧
    (markdownFiles (addFiles s incoming) =
      match ((incoming.map (fun p => mkEntry p.1 p.2)).filter
          (fun e => e.ftype ≠ FileType.unknown)).filter
          (fun e => e.ftype = FileType.markdown) with
      | [] => markdownFiles s
      | m :: _ => [m]) := by
  refine ⟨markdownFiles_runOps_le ops, ?_, ?_⟩
  · have hle := markdownFiles_runOps_le ops
    have hgt : ¬ (markdownFiles (runOps ops)).length > 1 := by omega
    simp only [validateFiles, hgt, if_false]
    split <;> split <;> simp
  · unfold addFiles
    set newFiles := (incoming.map (fun p => mkEntry p.1 p.2)).filter
      (fun e => e.ftype ≠ FileType.unknown)
    have himgs : markdownFiles (newFiles.filter
        (fun e => e.ftype = FileType.image)) = [] := by
      apply markdownFiles_of_images
      intro e he
      exact of_decide_eq_true (List.mem_filter.mp he).2
    cases hmd : newFiles.filter (fun e => e.ftype = FileType.markdown) with
    | nil => simp [hmd, markdownFiles_append, himgs]
    | cons m rest =>
      have hm : m.ftype = FileType.markdown := by
        have : m ∈ newFiles.filter (fun e => e.ftype = FileType.markdown) := by
          rw [hmd]; exact List.mem_cons_self m rest
        exact of_decide_eq_true (List.mem_filter.mp this).2
      simp only [hmd, markdownFiles_append, himgs, List.append_nil,
        markdownFiles_filter_ne, List.nil_append]
      simp [markdownFiles, hm]

/-- Witness for `at_most_one_markdown_invariant`: adding a batch with two
markdown files leaves a single markdown entry in the state. -/
theorem at_most_one_markdown_invariant_witness :
    (markdownFiles (runOps
      [UploadOp.add [(⟨"a.md", 1⟩, "i1"), (⟨"b.md", 2⟩, "i2")]])).length
        ≤ 1 ∧
    "Only one markdown file is allowed" ∉ (validateFiles (runOps
      [UploadOp.add [(⟨"a.md", 1⟩, "i1"), (⟨"b.md", 2⟩, "i2")]])).errors :=
  ⟨(at_most_one_markdown_invariant
      [UploadOp.add [(⟨"a.md", 1⟩, "i1"), (⟨"b.md", 2⟩, "i2")]] [] []).1,
    (at_most_one_markdown_invariant
      [UploadOp.add [(⟨"a.md", 1⟩, "i1"), (⟨"b.md", 2⟩, "i2")]] [] []).2.1⟩

/-- When no accumulated entry shares a path with any of the images to add,
the image fold of `createZip` appends one entry per image in order. -/
theorem foldl_zipFile_append (imgs : List FileEntry) :
    ∀ (acc : List ZipEntry),
      (∀ e ∈ acc, ∀ i ∈ imgs, e.path ≠ "images/" ++ i.file.name) →
      (imgs.map (fun i => "images/" ++ i.file.name)).Nodup →
      imgs.foldl
          (fun acc e => zipFile acc ("images/" ++ e.file.name) e.file) acc =
        acc ++ imgs.map
          (fun e => ZipEntry.mk ("images/" ++ e.file.name) e.file) := by
  induction imgs with
  | nil => intro acc _ _; simp
  | cons i rest ih =>
    intro acc hacc hnodup
    rw [List.map_cons, List.nodup_cons] at hnodup
    obtain ⟨hhd, htl⟩ := hnodup
    simp only [List.foldl_cons]
    have hz : zipFile acc ("images/" ++ i.file.name) i.file =
        acc ++ [ZipEntry.mk ("images/" ++ i.file.name) i.file] := by
      unfold zipFile
      rw [if_neg]
      intro hany
      rcases List.any_eq_true.mp hany with ⟨e, he, hpe⟩
      exact absurd (of_decide_eq_true hpe)
        (hacc e he i (List.mem_cons_self i rest))
    rw [hz, ih]
    · simp
    · intro e he j hj
      rcases List.mem_append.mp he with h1 | h2
      · exact hacc e h1 j (List.mem_cons_of_mem i hj)
      · simp only [List.mem_singleton] at h2
        subst h2
        intro hcontra
        have hc : "images/" ++ i.file.name = "images/" ++ j.file.name :=
          hcontra
        exact hhd (by rw [hc]; exact List.mem_map_of_mem _ hj)
    · exact htl

/-- C9 counterexample: with two images both named `a.png`, `zip.file`
replaces the first image's entry by the second, so the archive holds only
two entries and the first image is missing — refuting "every image file
under `images/<original name>`" as stated. -/
theorem createZip_duplicate_counterexample :
    createZip [⟨⟨"doc.md", 5⟩, "1", FileType.markdown⟩,
        ⟨⟨"a.png", 1⟩, "2", FileType.image⟩,
        ⟨⟨"a.png", 2⟩, "3", FileType.image⟩] =
      Except.ok [ZipEntry.mk "doc.md" ⟨"doc.md", 5⟩,
        ZipEntry.mk "images/a.png" ⟨"a.png", 2⟩] ∧
    ZipEntry.mk "images/a.png" ⟨"a.png", 1⟩ ∉
      [ZipEntry.mk "doc.md" ⟨"doc.md", 5⟩,
        ZipEntry.mk "images/a.png" ⟨"a.png", 2⟩] := by
  refine ⟨rfl, by decide⟩

/-- C9 (amended): with exactly one markdown file, and with the archive
paths (the markdown name and the prefixed image names) pairwise distinct,
`createZip` produces exactly the markdown file at the archive root under
its original name followed by every image file under
`images/<original name>`, and nothing else; a repeated path instead keeps
only the last write, as `zip.file` replaces entries in place. -/
theorem createZip_entries (files : List FileEntry)
    (h : (markdownFiles files).length = 1)
    (hnodup : ((markdownFiles files).map (fun m => m.file.name) ++
      (imageFiles files).map (fun e => "images/" ++ e.file.name)).Nodup) :
    ∃ m, markdownFiles files = [m] ∧
      createZip files = Except.ok
        (ZipEntry.mk m.file.name m.file ::
          (imageFiles files).map
            (fun e => ZipEntry.mk ("images/" ++ e.file.name) e.file)) := by
  obtain ⟨m, hm⟩ := List.length_eq_one.mp h
  refine ⟨m, hm, ?_⟩
  rw [createZip, hm]
  rw [hm] at hnodup
  simp only [List.map_cons, List.map_nil, List.singleton_append,
    List.nodup_cons] at hnodup
  obtain ⟨hmd, himgs⟩ := hnodup
  have hz0 : zipFile [] m.file.name m.file =
      [ZipEntry.mk m.file.name m.file] := by
    unfold zipFile
    simp
  dsimp only
  rw [hz0, foldl_zipFile_append]
  · simp
  · intro e he j hj
    simp only [List.mem_singleton] at he
    subst he
    intro hcontra
    have hc : m.file.name = "images/" ++ j.file.name := hcontra
    exact hmd (by rw [hc]; exact List.mem_map_of_mem _ hj)
  · exact himgs

/-- Witness for `createZip_entries` at a concrete two-file upload with
distinct archive paths. -/
theorem createZip_entries_witness :
    createZip [⟨⟨"doc.md", 5⟩, "1", FileType.markdown⟩,
        ⟨⟨"p.png", 9⟩, "2", FileType.image⟩] =
      Except.ok [ZipEntry.mk "doc.md" ⟨"doc.md", 5⟩,
        ZipEntry.mk "images/p.png" ⟨"p.png", 9⟩] := by
  obtain ⟨m, hm, hz⟩ := createZip_entries
    [⟨⟨"doc.md", 5⟩, "1", FileType.markdown⟩,
      ⟨⟨"p.png", 9⟩, "2", FileType.image⟩] (by decide) (by decide)
  have hm' : m = ⟨⟨"doc.md", 5⟩, "1", FileType.markdown⟩ := by
    have h := hm
    simp only [markdownFiles, List.filter] at h
    simp at h
    exact h.symm
  rw [hm'] at hz
  rw [hz]
  rfl

/-! ## C6 theorem -/

theorem jsTrim_of_all_whitespace (t : List Char)
    (h : ∀ c ∈ t, c.isWhitespace) : jsTrim t = [] := by
  unfold jsTrim
  rw [List.dropWhile_eq_nil_iff.mpr h]
  simp

/-- C6: conversion is permitted only with a present, valid title: an absent
or whitespace-only title makes the validator return an error, and the
form's validity flag is false exactly when the validator returns an
error. -/
theorem title_required (title : Option (List Char)) :
    ((title = none ∨ ∃ t, title = some t ∧ ∀ c ∈ t, c.isWhitespace) →
      (validateTitle title).isSome) ∧
    (formIsValid title = false ↔ (validateTitle title).isSome) := by
  constructor
  · rintro (rfl | ⟨t, rfl, hws⟩)
    · simp [validateTitle]
    · simp [validateTitle, jsTrim_of_all_whitespace t hws]
  · cases title with
    | none => simp [formIsValid, validateTitle]
    | some t =>
      constructor
      · intro hfalse
        rcases Bool.and_eq_false_iff.mp hfalse with h | h
        · have ht : t = [] := by
            by_contra hne
            simp [hne] at h
          subst ht
          simp [validateTitle, jsTrim]
        · simpa [Option.isNone_iff_eq_none, ← Option.ne_none_iff_isSome] using h
      · intro hsome
        have : (validateTitle (some t)).isNone = false := by
          simp [Option.isNone_iff_eq_none, ← Option.ne_none_iff_isSome, hsome]
        simp [formIsValid, this]

/-- Witness for `title_required` at the whitespace-only title `"  "` (and a
check that the biconditional holds there). -/
theorem title_required_witness :
    (validateTitle (some [' ', ' '])).isSome ∧
    (formIsValid (some [' ', ' ']) = false ↔
      (validateTitle (some [' ', ' '])).isSome) :=
  ⟨(title_required (some [' ', ' '])).1
    (Or.inr ⟨[' ', ' '], rfl, by decide⟩),
   (title_required (some [' ', ' '])).2⟩

/-! ## C10 lemmas and theorems -/

theorem mem_of_mem_splitOnP {q : Char → Bool} {c : Char} :
    ∀ {l p : List Char}, p ∈ l.splitOnP q → c ∈ p → c ∈ l := by
  intro l
  induction l with
  | nil =>
    intro p hp hc
    simp only [List.splitOnP_nil, List.mem_singleton] at hp
    subst hp
    simp at hc
  | cons a rest ih =>
    intro p hp hc
    rw [List.splitOnP_cons] at hp
    by_cases ha : q a
    · rw [if_pos ha] at hp
      rcases List.mem_cons.mp hp with rfl | hp'
      · simp at hc
      · exact List.mem_cons_of_mem a (ih hp' hc)
    · rw [if_neg ha] at hp
      cases hsp : rest.splitOnP q with
      | nil => exact absurd hsp (List.splitOnP_ne_nil q rest)
      | cons h t =>
        rw [hsp, List.modifyHead_cons] at hp
        rcases List.mem_cons.mp hp with rfl | hp'
        · rcases List.mem_cons.mp hc with rfl | hc'
          · exact List.mem_cons_self _ _
          · exact List.mem_cons_of_mem a
              (ih (hsp ▸ List.mem_cons_self h t) hc')
        · exact List.mem_cons_of_mem a
            (ih (hsp ▸ List.mem_cons_of_mem h hp') hc)

theorem mem_of_mem_splitOn {x c : Char} {l p : List Char}
    (hp : p ∈ l.splitOn x) (hc : c ∈ p) : c ∈ l :=
  mem_of_mem_splitOnP hp hc

theorem splitOn_ne_nil (x : Char) (l : List Char) : l.splitOn x ≠ [] :=
  List.splitOnP_ne_nil _ l

theorem splitOn_cons_of_ne (x a : Char) (rest : List Char) (ha : ¬ a = x) :
    ∃ h t, rest.splitOn x = h :: t ∧ (a :: rest).splitOn x = (a :: h) :: t := by
  cases hsp : rest.splitOn x with
  | nil => exact absurd hsp (splitOn_ne_nil x rest)
  | cons h t =>
    refine ⟨h, t, rfl, ?_⟩
    have hbeq : (a == x) = false := beq_eq_false_iff_ne.mpr ha
    simp only [List.splitOn, List.splitOnP_cons, hbeq, Bool.false_eq_true,
      if_false]
    simp only [List.splitOn] at hsp
    rw [hsp, List.modifyHead_cons]

theorem getLastD_mem {α : Type} : ∀ (l : List α) (d : α),
    l ≠ [] → l.getLastD d ∈ l := by
  intro l
  induction l with
  | nil => intro d h; exact absurd rfl h
  | cons a t ih =>
    intro d _
    cases t with
    | nil => simp
    | cons b t' =>
      rw [List.getLastD_cons]
      exact List.mem_cons_of_mem a (ih a (by simp))

theorem intercalate_dot_head (c : Char) (p : List Char) :
    ∀ (r : List (List Char)),
      (List.intercalate ['.'] ((c :: p) :: r)).head? = some c := by
  intro r
  cases r with
  | nil => simp [List.intercalate]
  | cons q qs =>
    simp [List.intercalate, List.intersperse_cons_cons]

theorem mem_intercalate_dot {c : Char} :
    ∀ {pss : List (List Char)}, c ∈ List.intercalate ['.'] pss →
      c = '.' ∨ ∃ p ∈ pss, c ∈ p := by
  intro pss
  induction pss with
  | nil => intro h; simp [List.intercalate] at h
  | cons p rest ih =>
    intro h
    cases rest with
    | nil =>
      simp only [List.intercalate, List.intersperse_singleton,
        List.flatten, List.append_nil] at h
      exact Or.inr ⟨p, by simp, h⟩
    | cons q qs =>
      simp only [List.intercalate, List.intersperse_cons_cons,
        List.flatten_cons, List.mem_append, List.mem_singleton] at h
      rcases h with hp | hrest
      · exact Or.inr ⟨p, by simp, hp⟩
      · rcases hrest with rfl | hrest'
        · exact Or.inl rfl
        · have : c ∈ List.intercalate ['.'] (q :: qs) := by
            simpa [List.intercalate] using hrest'
          rcases ih this with h1 | ⟨p', hp', hc'⟩
          · exact Or.inl h1
          · exact Or.inr ⟨p', List.mem_cons_of_mem p hp', hc'⟩

/-- Every character of the pre-truncation string is in the safe class. -/
theorem presanitize_safe (l : List Char) :
    ∀ c ∈ defaultIfBlank (prefixIfDotDash (replaceUnsafe l)),
      isSafeFilenameChar c := by
  intro c hc
  have hsafe₀ : ∀ d ∈ replaceUnsafe l, isSafeFilenameChar d := by
    intro d hd
    rcases List.mem_map.mp hd with ⟨a, _, ha⟩
    by_cases h : isSafeFilenameChar a
    · rw [← ha, if_pos h]; exact h
    · rw [← ha, if_neg h]; decide
  have hsafe₁ : ∀ d ∈ prefixIfDotDash (replaceUnsafe l),
      isSafeFilenameChar d := by
    intro d hd
    unfold prefixIfDotDash at hd
    split at hd
    · rcases List.mem_append.mp hd with hfile | horig
      · have hall : ("file_".toList).all isSafeFilenameChar = true := rfl
        exact List.all_eq_true.mp hall d hfile
      · exact hsafe₀ d horig
    · exact hsafe₀ d hd
  unfold defaultIfBlank at hc
  split at hc
  · have hall : ("document.pdf".toList).all isSafeFilenameChar = true := rfl
    exact List.all_eq_true.mp hall c hc
  · exact hsafe₁ c hc

/-- The pre-truncation string is never empty. -/
theorem presanitize_ne_nil (l : List Char) :
    defaultIfBlank (prefixIfDotDash (replaceUnsafe l)) ≠ [] := by
  unfold defaultIfBlank
  split
  · decide
  · next h =>
    intro hnil
    rw [hnil] at h
    simp at h

/-- The head of the pre-truncation string is never a dot or a hyphen. -/
theorem presanitize_head (l : List Char) (c : Char)
    (h : (defaultIfBlank (prefixIfDotDash (replaceUnsafe l))).head? = some c) :
    c ≠ '.' ∧ c ≠ '-' := by
  unfold defaultIfBlank at h
  split at h
  · have h' : some 'd' = some c := h
    have hc : c = 'd' := (Option.some.injEq _ _ ▸ h').symm
    subst hc
    decide
  · unfold prefixIfDotDash at h
    split at h
    · have hf : ("file_".toList ++ replaceUnsafe l).head? = some 'f' := rfl
      rw [hf] at h
      have hc : c = 'f' := (Option.some.injEq _ _ ▸ h).symm
      subst hc
      decide
    · next hdot =>
      cases hrep : replaceUnsafe l with
      | nil => rw [hrep] at h; simp at h
      | cons a t =>
        rw [hrep] at h
        simp only [List.head?_cons, Option.some.injEq] at h
        subst h
        rw [hrep] at hdot
        constructor <;> (intro hx; subst hx; simp [startsWithDotDash] at hdot)

theorem truncateTo100_ne_nil (s : List Char) (hs : s ≠ []) :
    truncateTo100 s ≠ [] := by
  unfold truncateTo100
  split
  · next hlen =>
    split
    · simp
    · have hl : (s.take 100).length = 100 := by
        rw [List.length_take]
        omega
      intro h
      rw [h] at hl
      simp at hl
  · exact hs

theorem truncateTo100_safe (s : List Char)
    (hs : ∀ c ∈ s, isSafeFilenameChar c) :
    ∀ c ∈ truncateTo100 s, isSafeFilenameChar c := by
  intro c hc
  unfold truncateTo100 at hc
  split at hc
  · split at hc
    · rcases List.mem_append.mp hc with htake | hdot
      · have hnm := List.take_subset _ _ htake
        rcases mem_intercalate_dot hnm with rfl | ⟨p, hp, hcp⟩
        · decide
        · exact hs c (mem_of_mem_splitOn (List.dropLast_subset _ hp) hcp)
      · rcases List.mem_cons.mp hdot with rfl | hext
        · decide
        · exact hs c (mem_of_mem_splitOn
            (getLastD_mem _ _ (splitOn_ne_nil '.' s)) hext)
    · exact hs c (List.take_subset _ _ hc)
  · exact hs c hc

theorem truncateTo100_bounded (s : List Char) (hs : s ≠ [])
    (hhead : ∀ c, s.head? = some c → c ≠ '.' ∧ c ≠ '-')
    (hguard : s.length ≤ 100 ∨ ((s.splitOn '.').getLastD []).length ≤ 98) :
    (truncateTo100 s).length ≤ 100 ∧
    ∀ c, (truncateTo100 s).head? = some c → c ≠ '.' ∧ c ≠ '-' := by
  unfold truncateTo100
  by_cases hlen : s.length > 100
  · rw [if_pos hlen]
    have hext98 : ((s.splitOn '.').getLastD []).length ≤ 98 := by
      rcases hguard with h | h
      · omega
      · exact h
    obtain ⟨a, s', rfl⟩ : ∃ a s', s = a :: s' := by
      cases s with
      | nil => exact absurd rfl hs
      | cons a s' => exact ⟨a, s', rfl⟩
    have ha := hhead a rfl
    by_cases hsl : ((a :: s').splitOn '.').length > 1
    · rw [if_pos hsl]
      obtain ⟨h0, t0, _, hsp2⟩ := splitOn_cons_of_ne '.' a s' ha.1
      obtain ⟨u, us, rfl⟩ : ∃ u us, t0 = u :: us := by
        cases t0 with
        | nil => rw [hsp2] at hsl; simp at hsl
        | cons u us => exact ⟨u, us, rfl⟩
      rw [hsp2]
      have hdrop : ((a :: h0) :: u :: us).dropLast =
          (a :: h0) :: (u :: us).dropLast := rfl
      rw [hdrop]
      set ext := (((a :: h0) :: u :: us)).getLastD [] with hext
      have he : ext.length ≤ 98 := by rw [hext, ← hsp2]; exact hext98
      set nm := List.intercalate ['.'] ((a :: h0) :: (u :: us).dropLast)
        with hnm
      have hnmhead : nm.head? = some a := intercalate_dot_head a h0 _
      obtain ⟨nm', hnm'⟩ : ∃ nm', nm = a :: nm' := by
        cases hn : nm with
        | nil => rw [hn] at hnmhead; simp at hnmhead
        | cons x xs =>
          rw [hn] at hnmhead
          simp only [List.head?_cons, Option.some.injEq] at hnmhead
          exact ⟨xs, by rw [hnmhead]⟩
      constructor
      · rw [List.length_append, List.length_cons, List.length_take]
        have : min (100 - ext.length - 1) nm.length ≤ 100 - ext.length - 1 :=
          Nat.min_le_left _ _
        omega
      · intro c hc
        obtain ⟨k, hk⟩ : ∃ k, 100 - ext.length - 1 = k + 1 := ⟨99 - ext.length - 1, by omega⟩
        rw [hnm', hk, List.take_succ_cons, List.cons_append,
          List.head?_cons, Option.some.injEq] at hc
        rw [← hc]
        exact ha
    · rw [if_neg hsl]
      constructor
      · rw [List.length_take]
        omega
      · intro c hc
        obtain ⟨k, hk⟩ : ∃ k, (100 : Nat) = k + 1 := ⟨99, rfl⟩
        rw [hk, List.take_succ_cons, List.head?_cons,
          Option.some.injEq] at hc
        rw [← hc]
        exact ha
  · rw [if_neg hlen]
    exact ⟨by omega, hhead⟩

/-- C10 (amended): `sanitizeFilename` always returns a non-empty string
containing only word characters, hyphens and dots; an empty input, or one
whose characters all sanitize to a single underscore, yields
`document.pdf`; and provided the sanitized string needs no truncation, or
the extension kept by the truncation step is at most 98 characters long,
the result moreover has at most 100 characters and does not start with a
dot or a hyphen. -/
theorem sanitizeFilename_spec (l : List Char) :
    sanitizeFilename l ≠ [] ∧
    (∀ c ∈ sanitizeFilename l, isSafeFilenameChar c) ∧
    ((replaceUnsafe l = [] ∨ replaceUnsafe l = ['_']) →
      sanitizeFilename l = "document.pdf".toList) ∧
    ((defaultIfBlank (prefixIfDotDash (replaceUnsafe l))).length ≤ 100 ∨
        (((defaultIfBlank (prefixIfDotDash (replaceUnsafe l))).splitOn
          '.').getLastD []).length ≤ 98 →
      (sanitizeFilename l).length ≤ 100 ∧
      ∀ c, (sanitizeFilename l).head? = some c → c ≠ '.' ∧ c ≠ '-') := by
  refine ⟨truncateTo100_ne_nil _ (presanitize_ne_nil l),
    truncateTo100_safe _ (presanitize_safe l), ?_, ?_⟩
  · rintro (h | h) <;> (unfold sanitizeFilename; rw [h]; decide)
  · intro hguard
    exact truncateTo100_bounded _ (presanitize_ne_nil l)
      (presanitize_head l) hguard

/-- Witness for `sanitizeFilename_spec` at the input `report v1.pdf`. -/
theorem sanitizeFilename_spec_witness :
    sanitizeFilename "report v1.pdf".toList ≠ [] ∧
    (sanitizeFilename "report v1.pdf".toList).length ≤ 100 := by
  have h := sanitizeFilename_spec "report v1.pdf".toList
  exact ⟨h.1, (h.2.2.2 (Or.inl (by decide))).1⟩

set_option maxRecDepth 10000 in
/-- C10 counterexample: on the input `a.` followed by 120 `b`s (a name with
a 120-character extension) the result has 121 characters and starts with a
dot, refuting both the 100-character bound and the no-leading-dot guarantee
of the claim as stated. -/
theorem sanitizeFilename_counterexample :
    100 < (sanitizeFilename ('a' :: '.' :: List.replicate 120 'b')).length ∧
    (sanitizeFilename ('a' :: '.' :: List.replicate 120 'b')).head? =
      some '.' := by
  decide

/-! ## Pagination planner (spec-modelled: the server core is not in src) -/

/-- Modelled from the spec: the `DocumentNode` tagged variant of §3.  Sized
constructors carry the content quantity the height heuristic consumes
(line counts for prose/code/raw, row count for tables, an estimated line
height for images); `KeepTogether` wraps its children. -/
inductive DocumentNode where
  | Heading (level : Nat) (text : String)
  | Paragraph (lines : Nat)
  | CodeBlock (lines : Nat)
  | Table (rows : Nat)
  | Image (height : Nat)
  | KeepTogether (children : List DocumentNode)
  | ManualPageBreak
  | Raw (lines : Nat)
  deriving Repr

/-- Is this node a `ManualPageBreak`? -/
def isPageBreak : DocumentNode → Bool
  | DocumentNode.ManualPageBreak => true
  | _ => false

/-- The atomic node kinds of planner rule 3: `Table`, `CodeBlock`, `Image`
and `KeepTogether` are never split across pages. -/
def isAtomic : DocumentNode → Bool
  | DocumentNode.Table _ => true
  | DocumentNode.CodeBlock _ => true
  | DocumentNode.Image _ => true
  | DocumentNode.KeepTogether _ => true
  | _ => false

mutual

/-- Modelled from the spec: the height-estimation heuristic of §4.3,
measured in lines — one line per heading, the line count for prose, code
and raw blocks, one line per table row, the estimated height for images,
and the sum of the children for `KeepTogether`; `ManualPageBreak` occupies
no space. -/
def nodeHeight : DocumentNode → Nat
  | DocumentNode.Heading _ _ => 1
  | DocumentNode.Paragraph l => l
  | DocumentNode.CodeBlock l => l
  | DocumentNode.Table r => r
  | DocumentNode.Image h => h
  | DocumentNode.KeepTogether cs => nodesHeight cs
  | DocumentNode.ManualPageBreak => 0
  | DocumentNode.Raw l => l

/-- Total height of a list of nodes. -/
def nodesHeight : List DocumentNode → Nat
  | [] => 0
  | n :: rest => nodeHeight n + nodesHeight rest

end

/-- Modelled from the spec: the planner configuration — the page
content-height budget (in lines) and the widow/orphan minimum (§4.3,
default 2). -/
structure PlanConfig where
  pageBudget : Nat
  widowOrphan : Nat
  deriving Repr, DecidableEq

/-- One page placement: the node index, the page it is placed on and the
number of lines it occupies there.  The list of placements of one planner
pass is the `PageAssignment`; a node split across pages has several
placements. -/
structure Placement where
  node : Nat
  page : Nat
  lines : Nat
  deriving Repr, DecidableEq

/-- Place the tail of a split paragraph (`lines` lines) starting at the top
of page `page`, filling whole pages; returns the placements and the final
(page, used) state. -/
def overflowParagraph (cfg : PlanConfig) (idx page lines : Nat) :
    List Placement × Nat × Nat :=
  if lines ≤ cfg.pageBudget ∨ cfg.pageBudget = 0 then
    ([⟨idx, page, lines⟩], page, lines)
  else
    let q := (lines - 1) / cfg.pageBudget
    let r := lines - q * cfg.pageBudget
    ((List.range q).map (fun i => ⟨idx, page + i, cfg.pageBudget⟩) ++
        [⟨idx, page + q, r⟩],
      page + q, r)

/-- Place one unsplittable block of height `h`: on the current page if it
fits, else at the top of the next page, and — when taller than a full page
— alone, starting a new page, with the following content pushed to the page
after it. -/
def placeBlock (cfg : PlanConfig) (idx page used h : Nat) :
    Placement × Nat × Nat :=
  if used + h ≤ cfg.pageBudget then (⟨idx, page, h⟩, page, used + h)
  else if h ≤ cfg.pageBudget then (⟨idx, page + 1, h⟩, page + 1, h)
  else if used = 0 then (⟨idx, page, h⟩, page + 1, 0)
  else (⟨idx, page + 1, h⟩, page + 2, 0)

/-- Modelled from the spec: the PageBreakPlanner walk of §4.3.  State:
current node index, current page, lines used on it, and whether the next
node is the first content block.  Rules in priority order: a
`ManualPageBreak` always starts a new page; a level-1 `Heading` starts a
new page unless it is the first content block or the page is still empty;
levels ≥ 2 move to the next page when no line of content would fit below
them; atomic blocks (and `Raw` passthrough blocks, for which no split rule
exists) are placed whole — on the current page if they fit, else on the
next page, and a block taller than a full page is placed alone starting a
new page; a `Paragraph` is split at a line boundary when at least the
widow/orphan minimum remains on both sides, and otherwise moves whole to
the next page. -/
def planNodes (cfg : PlanConfig) :
    List DocumentNode → Nat → Nat → Nat → Bool → List Placement
  | [], _, _, _, _ => []
  | n :: rest, idx, page, used, first =>
    match n with
    | DocumentNode.ManualPageBreak =>
      ⟨idx, page, 0⟩ :: planNodes cfg rest (idx + 1) (page + 1) 0 false
    | DocumentNode.Heading lvl _ =>
      if lvl = 1 then
        let pu := if first || used = 0 then (page, used) else (page + 1, 0)
        ⟨idx, pu.1, 1⟩ :: planNodes cfg rest (idx + 1) pu.1 (pu.2 + 1) false
      else
        let pu := if used + 1 + 1 ≤ cfg.pageBudget then (page, used)
          else (page + 1, 0)
        ⟨idx, pu.1, 1⟩ :: planNodes cfg rest (idx + 1) pu.1 (pu.2 + 1) false
    | DocumentNode.Paragraph lines =>
      if used + lines ≤ cfg.pageBudget then
        ⟨idx, page, lines⟩ ::
          planNodes cfg rest (idx + 1) page (used + lines) false
      else if cfg.widowOrphan ≤ cfg.pageBudget - used ∧
          cfg.widowOrphan ≤ lines - (cfg.pageBudget - used) then
        let s := overflowParagraph cfg idx (page + 1)
          (lines - (cfg.pageBudget - used))
        ⟨idx, page, cfg.pageBudget - used⟩ ::
          (s.1 ++ planNodes cfg rest (idx + 1) s.2.1 s.2.2 false)
      else
        let s := overflowParagraph cfg idx (page + 1) lines
        s.1 ++ planNodes cfg rest (idx + 1) s.2.1 s.2.2 false
    | n' =>
      let s := placeBlock cfg idx page used (nodeHeight n')
      s.1 :: planNodes cfg rest (idx + 1) s.2.1 s.2.2 false

/-- One full planner pass over a forest, starting with node index 0 on an
empty page 1. -/
def planForest (cfg : PlanConfig) (ns : List DocumentNode) : List Placement :=
  planNodes cfg ns 0 1 0 true

/-- Is the node at position `k` of the forest an atomic block? -/
def atomicAt (ns : List DocumentNode) (k : Nat) : Bool :=
  match ns.get? k with
  | some n => isAtomic n
  | none => false

/-! ## Planner lemmas -/

theorem overflowParagraph_spec (cfg : PlanConfig) (idx page lines : Nat) :
    (∀ pl ∈ (overflowParagraph cfg idx page lines).1,
      pl.node = idx ∧ page ≤ pl.page ∧
        pl.page ≤ (overflowParagraph cfg idx page lines).2.1) ∧
    page ≤ (overflowParagraph cfg idx page lines).2.1 ∧
    (overflowParagraph cfg idx page lines).1 ≠ [] ∧
    (0 < lines → 0 < (overflowParagraph cfg idx page lines).2.2) := by
  unfold overflowParagraph
  split
  · refine ⟨?_, le_refl page, by simp, fun h => h⟩
    intro pl hpl
    simp only [List.mem_singleton] at hpl
    subst hpl
    exact ⟨rfl, le_refl page, le_refl page⟩
  · next hcond =>
    push_neg at hcond
    refine ⟨?_, Nat.le_add_right _ _, by simp, fun _ => ?_⟩
    · intro pl hpl
      rcases List.mem_append.mp hpl with hr | hl
      · rcases List.mem_map.mp hr with ⟨i, hi, rfl⟩
        have hilt := List.mem_range.mp hi
        exact ⟨rfl, Nat.le_add_right _ _, by simp; omega⟩
      · simp only [List.mem_singleton] at hl
        subst hl
        exact ⟨rfl, Nat.le_add_right _ _, le_refl _⟩
    · have key : (lines - 1) / cfg.pageBudget * cfg.pageBudget ≤ lines - 1 :=
        Nat.div_mul_le_self _ _
      simp only
      omega

theorem placeBlock_spec (cfg : PlanConfig) (idx p u h : Nat) :
    (placeBlock cfg idx p u h).1.node = idx ∧
    p ≤ (placeBlock cfg idx p u h).1.page ∧
    (placeBlock cfg idx p u h).1.page ≤ (placeBlock cfg idx p u h).2.1 ∧
    p ≤ (placeBlock cfg idx p u h).2.1 ∧
    (0 < h →
      ((placeBlock cfg idx p u h).2.2 = 0 →
        (placeBlock cfg idx p u h).1.page < (placeBlock cfg idx p u h).2.1) ∧
      (u ≠ 0 → p < (placeBlock cfg idx p u h).2.1 ∨
        (placeBlock cfg idx p u h).2.2 ≠ 0)) := by
  unfold placeBlock
  split
  · refine ⟨rfl, le_refl p, le_refl p, le_refl p,
      fun hh => ⟨fun h0 => ?_, fun hu => Or.inr ?_⟩⟩ <;> (dsimp only at *; omega)
  · split
    · refine ⟨rfl, Nat.le_succ p, le_refl _, Nat.le_succ p,
        fun hh => ⟨fun h0 => ?_, fun _ => Or.inl ?_⟩⟩ <;> (dsimp only at *; omega)
    · split
      · refine ⟨rfl, le_refl p, Nat.le_succ p, Nat.le_succ p,
          fun _ => ⟨fun _ => ?_, fun hu => ?_⟩⟩ <;> (dsimp only at *; omega)
      · refine ⟨rfl, Nat.le_succ p, ?_, ?_,
          fun _ => ⟨fun _ => ?_, fun _ => Or.inl ?_⟩⟩ <;> (dsimp only at *; omega)

theorem planNodes_cons_block (cfg : PlanConfig) (n : DocumentNode)
    (rest : List DocumentNode) (idx p u : Nat) (f : Bool)
    (hmatch : planNodes cfg (n :: rest) idx p u f =
      (placeBlock cfg idx p u (nodeHeight n)).1 ::
        planNodes cfg rest (idx + 1)
          (placeBlock cfg idx p u (nodeHeight n)).2.1
          (placeBlock cfg idx p u (nodeHeight n)).2.2 false)
    (hpb : isPageBreak n = false) :
    ∃ seg p' u',
      planNodes cfg (n :: rest) idx p u f =
        seg ++ planNodes cfg rest (idx + 1) p' u' false ∧
      (∀ pl ∈ seg, pl.node = idx) ∧
      seg ≠ [] ∧
      (isAtomic n = true → ∃ pl, seg = [pl]) ∧
      (∀ pl ∈ seg, p ≤ pl.page ∧ pl.page ≤ p') ∧
      p ≤ p' ∧
      (0 < cfg.widowOrphan → (isPageBreak n = true ∨ 0 < nodeHeight n) →
        (u' = 0 → ∀ pl ∈ seg, pl.page < p') ∧
        (u ≠ 0 → p < p' ∨ u' ≠ 0)) := by
  obtain ⟨hnode, hge, hle, hpp, hbul⟩ :=
    placeBlock_spec cfg idx p u (nodeHeight n)
  refine ⟨[(placeBlock cfg idx p u (nodeHeight n)).1],
    (placeBlock cfg idx p u (nodeHeight n)).2.1,
    (placeBlock cfg idx p u (nodeHeight n)).2.2,
    by rw [hmatch]; rfl, ?_, by simp, fun _ => ⟨_, rfl⟩, ?_, hpp, ?_⟩
  · intro pl hpl
    simp only [List.mem_singleton] at hpl
    subst hpl
    exact hnode
  · intro pl hpl
    simp only [List.mem_singleton] at hpl
    subst hpl
    exact ⟨hge, hle⟩
  · intro _ hn
    have hh : 0 < nodeHeight n := by
      rcases hn with hn | hn
      · exact absurd hn (by rw [hpb]; simp)
      · exact hn
    obtain ⟨h1, h2⟩ := hbul hh
    refine ⟨fun h0 pl hpl => ?_, h2⟩
    simp only [List.mem_singleton] at hpl
    subst hpl
    exact h1 h0

theorem planNodes_cons (cfg : PlanConfig) (n : DocumentNode)
    (rest : List DocumentNode) (idx p u : Nat) (f : Bool)
    (hf : f = true → u = 0) :
    ∃ seg p' u',
      planNodes cfg (n :: rest) idx p u f =
        seg ++ planNodes cfg rest (idx + 1) p' u' false ∧
      (∀ pl ∈ seg, pl.node = idx) ∧
      seg ≠ [] ∧
      (isAtomic n = true → ∃ pl, seg = [pl]) ∧
      (∀ pl ∈ seg, p ≤ pl.page ∧ pl.page ≤ p') ∧
      p ≤ p' ∧
      (0 < cfg.widowOrphan → (isPageBreak n = true ∨ 0 < nodeHeight n) →
        (u' = 0 → ∀ pl ∈ seg, pl.page < p') ∧
        (u ≠ 0 → p < p' ∨ u' ≠ 0)) := by
  cases n with
  | ManualPageBreak =>
    refine ⟨[⟨idx, p, 0⟩], p + 1, 0, by simp [planNodes], ?_, by simp,
      by simp [isAtomic], ?_, Nat.le_succ p, ?_⟩
    · intro pl hpl
      simp only [List.mem_singleton] at hpl
      subst hpl
      rfl
    · intro pl hpl
      simp only [List.mem_singleton] at hpl
      subst hpl
      exact ⟨le_refl p, Nat.le_succ p⟩
    · intro _ _
      refine ⟨fun _ pl hpl => ?_, fun _ => Or.inl (Nat.lt_succ_self p)⟩
      simp only [List.mem_singleton] at hpl
      subst hpl
      exact Nat.lt_succ_self p
  | Heading lvl text =>
    by_cases h1 : lvl = 1
    · subst h1
      by_cases hstay : (f || decide (u = 0)) = true
      · have hu0 : u = 0 := by
          rcases Bool.or_eq_true _ _ |>.mp hstay with hft | hu
          · exact hf hft
          · exact of_decide_eq_true hu
        refine ⟨[⟨idx, p, 1⟩], p, u + 1, ?_, ?_, by simp,
          by simp [isAtomic], ?_, le_refl p, ?_⟩
        · simp [planNodes, hstay]
        · intro pl hpl
          simp only [List.mem_singleton] at hpl
          subst hpl
          rfl
        · intro pl hpl
          simp only [List.mem_singleton] at hpl
          subst hpl
          exact ⟨le_refl p, le_refl p⟩
        · intro _ _
          exact ⟨fun h => by omega, fun hu => absurd hu0 hu⟩
      · refine ⟨[⟨idx, p + 1, 1⟩], p + 1, 1, ?_, ?_, by simp,
          by simp [isAtomic], ?_, Nat.le_succ p, ?_⟩
        · simp only [planNodes, if_pos rfl, hstay]
          simp
        · intro pl hpl
          simp only [List.mem_singleton] at hpl
          subst hpl
          rfl
        · intro pl hpl
          simp only [List.mem_singleton] at hpl
          subst hpl
          exact ⟨Nat.le_succ p, le_refl _⟩
        · intro _ _
          exact ⟨fun h => by omega, fun _ => Or.inl (Nat.lt_succ_self p)⟩
    · by_cases hfit : u + 1 + 1 ≤ cfg.pageBudget
      · refine ⟨[⟨idx, p, 1⟩], p, u + 1, ?_, ?_, by simp,
          by simp [isAtomic], ?_, le_refl p, ?_⟩
        · simp [planNodes, h1, hfit]
        · intro pl hpl
          simp only [List.mem_singleton] at hpl
          subst hpl
          rfl
        · intro pl hpl
          simp only [List.mem_singleton] at hpl
          subst hpl
          exact ⟨le_refl p, le_refl p⟩
        · intro _ _
          exact ⟨fun h => by omega, fun _ => Or.inr (by omega)⟩
      · refine ⟨[⟨idx, p + 1, 1⟩], p + 1, 1, ?_, ?_, by simp,
          by simp [isAtomic], ?_, Nat.le_succ p, ?_⟩
        · simp [planNodes, h1, hfit]
        · intro pl hpl
          simp only [List.mem_singleton] at hpl
          subst hpl
          rfl
        · intro pl hpl
          simp only [List.mem_singleton] at hpl
          subst hpl
          exact ⟨Nat.le_succ p, le_refl _⟩
        · intro _ _
          exact ⟨fun h => by omega, fun _ => Or.inl (Nat.lt_succ_self p)⟩
  | Paragraph lines =>
    by_cases hfit : u + lines ≤ cfg.pageBudget
    · refine ⟨[⟨idx, p, lines⟩], p, u + lines, ?_, ?_, by simp,
        by simp [isAtomic], ?_, le_refl p, ?_⟩
      · simp [planNodes, hfit]
      · intro pl hpl
        simp only [List.mem_singleton] at hpl
        subst hpl
        rfl
      · intro pl hpl
        simp only [List.mem_singleton] at hpl
        subst hpl
        exact ⟨le_refl p, le_refl p⟩
      · intro _ hn
        have hl : 0 < lines := by
          rcases hn with hn | hn
          · exact absurd hn (by simp [isPageBreak])
          · simpa [nodeHeight] using hn
        exact ⟨fun h => by omega, fun _ => Or.inr (by omega)⟩
    · by_cases hsplit : cfg.widowOrphan ≤ cfg.pageBudget - u ∧
          cfg.widowOrphan ≤ lines - (cfg.pageBudget - u)
      · obtain ⟨hov, hovp, hovne, hovu⟩ := overflowParagraph_spec cfg idx
          (p + 1) (lines - (cfg.pageBudget - u))
        refine ⟨⟨idx, p, cfg.pageBudget - u⟩ ::
            (overflowParagraph cfg idx (p + 1)
              (lines - (cfg.pageBudget - u))).1,
          (overflowParagraph cfg idx (p + 1)
            (lines - (cfg.pageBudget - u))).2.1,
          (overflowParagraph cfg idx (p + 1)
            (lines - (cfg.pageBudget - u))).2.2,
          ?_, ?_, by simp, by simp [isAtomic], ?_, by omega, ?_⟩
        · simp [planNodes, hfit, hsplit]
        · intro pl hpl
          rcases List.mem_cons.mp hpl with rfl | hpl'
          · rfl
          · exact (hov pl hpl').1
        · intro pl hpl
          rcases List.mem_cons.mp hpl with rfl | hpl'
          · exact ⟨le_refl p, by dsimp only; omega⟩
          · obtain ⟨-, hge, hle⟩ := hov pl hpl'
            exact ⟨by omega, hle⟩
        · intro hw _
          refine ⟨fun h0 => ?_, fun _ => Or.inl (by omega)⟩
          have : 0 < (overflowParagraph cfg idx (p + 1)
              (lines - (cfg.pageBudget - u))).2.2 :=
            hovu (by omega)
          omega
      · obtain ⟨hov, hovp, hovne, hovu⟩ := overflowParagraph_spec cfg idx
          (p + 1) lines
        refine ⟨(overflowParagraph cfg idx (p + 1) lines).1,
          (overflowParagraph cfg idx (p + 1) lines).2.1,
          (overflowParagraph cfg idx (p + 1) lines).2.2,
          ?_, ?_, hovne, ?_, ?_, by omega, ?_⟩
        · simp [planNodes, hfit, hsplit]
        · intro pl hpl
          exact (hov pl hpl).1
        · intro h
          exact absurd h (by simp [isAtomic])
        · intro pl hpl
          obtain ⟨-, hge, hle⟩ := hov pl hpl
          exact ⟨by omega, hle⟩
        · intro hw hn
          have hl : 0 < lines := by
            rcases hn with hn | hn
            · exact absurd hn (by simp [isPageBreak])
            · simpa [nodeHeight] using hn
          refine ⟨fun h0 => absurd h0 (by have := hovu hl; omega),
            fun _ => Or.inl (by omega)⟩
  | Table rows =>
    exact planNodes_cons_block cfg (DocumentNode.Table rows) rest idx p u f
      (by simp [planNodes]) rfl
  | CodeBlock l =>
    exact planNodes_cons_block cfg (DocumentNode.CodeBlock l) rest idx p u f
      (by simp [planNodes]) rfl
  | Image h =>
    exact planNodes_cons_block cfg (DocumentNode.Image h) rest idx p u f
      (by simp [planNodes]) rfl
  | KeepTogether cs =>
    exact planNodes_cons_block cfg (DocumentNode.KeepTogether cs) rest idx p
      u f (by simp [planNodes]) rfl
  | Raw l =>
    exact planNodes_cons_block cfg (DocumentNode.Raw l) rest idx p u f
      (by simp [planNodes]) rfl

theorem planNodes_node_ge (cfg : PlanConfig) :
    ∀ (ns : List DocumentNode) (idx p u : Nat) (f : Bool),
      (f = true → u = 0) →
      ∀ pl ∈ planNodes cfg ns idx p u f, idx ≤ pl.node := by
  intro ns
  induction ns with
  | nil =>
    intro idx p u f _ pl hpl
    simp [planNodes] at hpl
  | cons n rest ih =>
    intro idx p u f hf pl hpl
    obtain ⟨seg, p', u', heq, hseg, -, -, -, -, -⟩ :=
      planNodes_cons cfg n rest idx p u f hf
    rw [heq] at hpl
    rcases List.mem_append.mp hpl with h | h
    · exact le_of_eq (hseg pl h).symm
    · have := ih (idx + 1) p' u' false (by simp) pl h
      omega

theorem planNodes_atomic_aux (cfg : PlanConfig) :
    ∀ (ns : List DocumentNode) (idx p u : Nat) (f : Bool),
      (f = true → u = 0) →
      ∀ pl1 pl2, pl1 ∈ planNodes cfg ns idx p u f →
        pl2 ∈ planNodes cfg ns idx p u f → pl1.node = pl2.node →
        atomicAt ns (pl1.node - idx) = true → pl1.page = pl2.page := by
  intro ns
  induction ns with
  | nil =>
    intro idx p u f _ pl1 pl2 h1 _ _ _
    simp [planNodes] at h1
  | cons n rest ih =>
    intro idx p u f hf pl1 pl2 h1 h2 hnode hat
    obtain ⟨seg, p', u', heq, hseg, -, hsingle, -, -, -⟩ :=
      planNodes_cons cfg n rest idx p u f hf
    rw [heq] at h1 h2
    rcases List.mem_append.mp h1 with hs1 | hr1
    · have hn1 : pl1.node = idx := hseg pl1 hs1
      rcases List.mem_append.mp h2 with hs2 | hr2
      · -- both in the head segment: the node is atomic, so the segment is
        -- a single placement
        have hat' : isAtomic n = true := by
          have : pl1.node - idx = 0 := by omega
          rw [this] at hat
          simpa [atomicAt] using hat
        obtain ⟨pl, hpl⟩ := hsingle hat'
        rw [hpl] at hs1 hs2
        simp only [List.mem_singleton] at hs1 hs2
        rw [hs1, hs2]
      · have := planNodes_node_ge cfg rest (idx + 1) p' u' false (by simp)
          pl2 hr2
        omega
    · have hge1 := planNodes_node_ge cfg rest (idx + 1) p' u' false (by simp)
        pl1 hr1
      rcases List.mem_append.mp h2 with hs2 | hr2
      · have := hseg pl2 hs2
        omega
      · refine ih (idx + 1) p' u' false (by simp) pl1 pl2 hr1 hr2 hnode ?_
        have hk : pl1.node - idx = (pl1.node - (idx + 1)) + 1 := by omega
        rw [hk] at hat
        simpa [atomicAt] using hat

/-- C3: in every page assignment the planner produces, no `Table`,
`CodeBlock`, `Image` or `KeepTogether` node is assigned to two different
pages: any two placements of the same atomic node lie on the same page. -/
theorem atomic_never_splits (cfg : PlanConfig) (ns : List DocumentNode)
    (pl1 pl2 : Placement) (h1 : pl1 ∈ planForest cfg ns)
    (h2 : pl2 ∈ planForest cfg ns) (hnode : pl1.node = pl2.node)
    (hat : atomicAt ns pl1.node = true) : pl1.page = pl2.page := by
  have := planNodes_atomic_aux cfg ns 0 1 0 true (fun _ => rfl) pl1 pl2 h1 h2
    hnode
  simpa using this hat

/-- Witness for `atomic_never_splits`: a document with a paragraph, a table
and a code block; the table's single placement agrees with itself. -/
theorem atomic_never_splits_witness :
    (⟨1, 1, 4⟩ : Placement) ∈
      planForest ⟨10, 2⟩ [DocumentNode.Paragraph 3, DocumentNode.Table 4,
        DocumentNode.CodeBlock 2] ∧
    atomicAt [DocumentNode.Paragraph 3, DocumentNode.Table 4,
      DocumentNode.CodeBlock 2] 1 = true ∧
    (⟨1, 1, 4⟩ : Placement).page = (⟨1, 1, 4⟩ : Placement).page :=
  ⟨by decide, by decide,
    atomic_never_splits ⟨10, 2⟩
      [DocumentNode.Paragraph 3, DocumentNode.Table 4,
        DocumentNode.CodeBlock 2] ⟨1, 1, 4⟩ ⟨1, 1, 4⟩ (by decide) (by decide)
      rfl (by decide)⟩

theorem planNodes_h1_aux (cfg : PlanConfig) (hw : 0 < cfg.widowOrphan) :
    ∀ (ns : List DocumentNode) (idx p u : Nat) (f : Bool),
      (∀ n ∈ ns, isPageBreak n = true ∨ 0 < nodeHeight n) →
      (f = true → u = 0) →
      ∀ j text, ns.get? j = some (DocumentNode.Heading 1 text) →
        (f = false ∨ 0 < j) →
        ∃ q, p ≤ q ∧ (u ≠ 0 → p < q) ∧
          (∃ pl ∈ planNodes cfg ns idx p u f,
            pl.node = idx + j ∧ pl.page = q) ∧
          (∀ pl ∈ planNodes cfg ns idx p u f, pl.node = idx + j →
            pl.page = q) ∧
          (∀ pl ∈ planNodes cfg ns idx p u f, pl.node < idx + j →
            pl.page < q) := by
  intro ns
  induction ns with
  | nil =>
    intro idx p u f _ _ j text hget _
    simp at hget
  | cons n rest ih =>
    intro idx p u f hpos hf j text hget hforj
    cases j with
    | zero =>
      have hn : n = DocumentNode.Heading 1 text := by
        simpa using hget
      subst hn
      have hfalse : f = false := by
        rcases hforj with h | h
        · exact h
        · omega
      subst hfalse
      by_cases hu : u = 0
      · have heq : planNodes cfg (DocumentNode.Heading 1 text :: rest)
            idx p u false =
            ⟨idx, p, 1⟩ :: planNodes cfg rest (idx + 1) p (u + 1) false := by
          simp [planNodes, hu]
        refine ⟨p, le_refl p, fun h => absurd hu h, ?_, ?_, ?_⟩
        · exact ⟨⟨idx, p, 1⟩, by rw [heq]; exact List.mem_cons_self _ _,
            by simp, rfl⟩
        · intro pl hpl hnode
          rw [heq] at hpl
          rcases List.mem_cons.mp hpl with rfl | hpl'
          · rfl
          · have := planNodes_node_ge cfg rest (idx + 1) p (u + 1) false
              (by simp) pl hpl'
            omega
        · intro pl hpl hnode
          rw [heq] at hpl
          rcases List.mem_cons.mp hpl with rfl | hpl'
          · simp at hnode
          · have := planNodes_node_ge cfg rest (idx + 1) p (u + 1) false
              (by simp) pl hpl'
            omega
      · have heq : planNodes cfg (DocumentNode.Heading 1 text :: rest)
            idx p u false =
            ⟨idx, p + 1, 1⟩ ::
              planNodes cfg rest (idx + 1) (p + 1) 1 false := by
          simp [planNodes, hu]
        refine ⟨p + 1, Nat.le_succ p, fun _ => Nat.lt_succ_self p, ?_, ?_, ?_⟩
        · exact ⟨⟨idx, p + 1, 1⟩, by rw [heq]; exact List.mem_cons_self _ _,
            by simp, rfl⟩
        · intro pl hpl hnode
          rw [heq] at hpl
          rcases List.mem_cons.mp hpl with rfl | hpl'
          · rfl
          · have := planNodes_node_ge cfg rest (idx + 1) (p + 1) 1 false
              (by simp) pl hpl'
            omega
        · intro pl hpl hnode
          rw [heq] at hpl
          rcases List.mem_cons.mp hpl with rfl | hpl'
          · simp at hnode
          · have := planNodes_node_ge cfg rest (idx + 1) (p + 1) 1 false
              (by simp) pl hpl'
            omega
    | succ j' =>
      have hget' : rest.get? j' = some (DocumentNode.Heading 1 text) := hget
      obtain ⟨seg, p', u', heq, hseg, -, -, hpages, hpp, hbul⟩ :=
        planNodes_cons cfg n rest idx p u f hf
      have hn : isPageBreak n = true ∨ 0 < nodeHeight n :=
        hpos n (List.mem_cons_self n rest)
      obtain ⟨hseg0, hmono⟩ := hbul hw hn
      obtain ⟨q, hq1, hq2, ⟨pl₀, hpl₀, hpl₀n, hpl₀p⟩, huniq, hprior⟩ :=
        ih (idx + 1) p' u' false (fun m hm => hpos m (List.mem_cons_of_mem n hm))
          (by simp) j' text hget' (Or.inl rfl)
      refine ⟨q, le_trans hpp hq1, ?_, ?_, ?_, ?_⟩
      · intro hu
        rcases hmono hu with h | h
        · omega
        · have := hq2 h
          omega
      · refine ⟨pl₀, ?_, by omega, hpl₀p⟩
        rw [heq]
        exact List.mem_append_right seg hpl₀
      · intro pl hpl hnode
        rw [heq] at hpl
        rcases List.mem_append.mp hpl with hs | hr
        · have := hseg pl hs
          omega
        · exact huniq pl hr (by omega)
      · intro pl hpl hnode
        rw [heq] at hpl
        rcases List.mem_append.mp hpl with hs | hr
        · obtain ⟨-, hle⟩ := hpages pl hs
          by_cases hu' : u' = 0
          · have := hseg0 hu' pl hs
            omega
          · have := hq2 hu'
            omega
        · have hge := planNodes_node_ge cfg rest (idx + 1) p' u' false
            (by simp) pl hr
          exact hprior pl hr (by omega)

/-- C4: a level-1 heading that is not the first content block is assigned
to a page on which it is the first block (every other placement on that
page belongs to a later node), and a level-1 heading that is the first
content block stays on the first page, so no leading blank page is
produced. -/
theorem h1_starts_new_page (cfg : PlanConfig) (ns : List DocumentNode)
    (hw : 0 < cfg.widowOrphan)
    (hpos : ∀ n ∈ ns, isPageBreak n = true ∨ 0 < nodeHeight n)
    (hlen : 1 < ns.length) :
    (∀ j text, 0 < j → ns.get? j = some (DocumentNode.Heading 1 text) →
      ∀ pl1 ∈ planForest cfg ns, pl1.node = j →
        ∀ pl2 ∈ planForest cfg ns, pl2.page = pl1.page → j ≤ pl2.node) ∧
    (∀ text, ns.get? 0 = some (DocumentNode.Heading 1 text) →
      ∀ pl ∈ planForest cfg ns, pl.node = 0 → pl.page = 1) := by
  constructor
  · intro j text hj hget pl1 h1 hn1 pl2 h2 hp2
    obtain ⟨q, -, -, -, huniq, hprior⟩ :=
      planNodes_h1_aux cfg hw ns 0 1 0 true hpos (fun _ => rfl) j text hget
        (Or.inr hj)
    have hq1 : pl1.page = q := huniq pl1 h1 (by omega)
    by_contra hlt
    push_neg at hlt
    have := hprior pl2 h2 (by omega)
    omega
  · intro text hget pl hpl hnode
    obtain ⟨rest, rfl⟩ : ∃ rest, ns = DocumentNode.Heading 1 text :: rest := by
      cases ns with
      | nil => simp at hget
      | cons m rest =>
        have : m = DocumentNode.Heading 1 text := by simpa using hget
        exact ⟨rest, by rw [this]⟩
    have heq : planForest cfg (DocumentNode.Heading 1 text :: rest) =
        ⟨0, 1, 1⟩ :: planNodes cfg rest 1 1 1 false := by
      simp [planForest, planNodes]
    rw [heq] at hpl
    rcases List.mem_cons.mp hpl with rfl | hpl'
    · rfl
    · have := planNodes_node_ge cfg rest 1 1 1 false (by simp) pl hpl'
      omega

/-- Witness for `h1_starts_new_page`: in the two-block document
`[Paragraph 3, Heading 1]` the heading (node 1) is placed on page 2; any
placement sharing that page — here the heading's own — belongs to node 1 or
later. -/
theorem h1_starts_new_page_witness :
    (1 : Nat) ≤ (⟨1, 2, 1⟩ : Placement).node :=
  (h1_starts_new_page ⟨10, 2⟩
      [DocumentNode.Paragraph 3, DocumentNode.Heading 1 "A"] (by decide)
      (by decide) (by decide)).1 1 "A" (by decide) rfl ⟨1, 2, 1⟩ (by decide)
    rfl ⟨1, 2, 1⟩ (by decide) rfl

/-! ## TOC builder (spec-modelled: the server core is not in src) -/

/-- Is this heading eligible for the TOC (levels 1–3 only)? -/
def isTocHeading : DocumentNode → Bool
  | DocumentNode.Heading lvl _ => 1 ≤ lvl && lvl ≤ 3
  | _ => false

/-- The TOC headings of the forest, each with its node index. -/
def headingIdx (ns : List DocumentNode) : List (Nat × DocumentNode) :=
  ns.enum.filter (fun x => isTocHeading x.2)

/-- The page a node starts on in a page assignment (0 when absent). -/
def pageOfNode (out : List Placement) (i : Nat) : Nat :=
  match out.find? (fun pl => pl.node = i) with
  | some pl => pl.page
  | none => 0

/-- The heading→page map of one pass, compared across passes by the
convergence loop. -/
def headingPageMap (ns : List DocumentNode) (out : List Placement) :
    List (Nat × Nat) :=
  (headingIdx ns).map (fun x => (x.1, pageOfNode out x.1))

/-- Modelled from the spec: a `TOCEntry` — heading text, level, target
node, resolved page number. -/
structure TOCEntry where
  text : String
  level : Nat
  node : Nat
  page : Nat
  deriving Repr, DecidableEq

/-- Finalize the TOC entries from a page assignment. -/
def mkEntries (ns : List DocumentNode) (out : List Placement) :
    List TOCEntry :=
  (headingIdx ns).map (fun x =>
    match x.2 with
    | DocumentNode.Heading lvl text => ⟨text, lvl, x.1, pageOfNode out x.1⟩
    | _ => ⟨"", 0, x.1, pageOfNode out x.1⟩)

/-- Modelled from the spec: the TOC page block is sized from the heading
count — one line per entry, rounded up to whole pages. -/
def tocPageCount (cfg : PlanConfig) (ns : List DocumentNode) : Nat :=
  ((headingIdx ns).length + cfg.pageBudget - 1) / cfg.pageBudget

/-- Modelled from the spec: one planner pass with the cover as page 1 and
`t` TOC pages inserted immediately after it; content starts on page
`2 + t`. -/
def planWithToc (cfg : PlanConfig) (ns : List DocumentNode) (t : Nat) :
    List Placement :=
  planNodes cfg ns 0 (2 + t) 0 true

/-- The outcome of the TOC convergence loop: the finalized entries, the
final page assignment handed to the renderer, and whether the loop
converged (an unchanged heading→page map) or hit the iteration cap. -/
structure TocResult where
  entries : List TOCEntry
  assignment : List Placement
  converged : Bool
  deriving Repr, DecidableEq

/-- Modelled from the spec: the two-pass convergence loop of §4.4 — re-plan
with the TOC pages inserted, compare the heading→page map with the previous
one, stop when unchanged (converged) or when the iteration cap is spent
(best effort, keep the last pass). -/
def tocIterate (cfg : PlanConfig) (ns : List DocumentNode) :
    Nat → List (Nat × Nat) → TocResult
  | 0, _ => ⟨[], [], false⟩
  | fuel + 1, prev =>
    if headingPageMap ns (planWithToc cfg ns (tocPageCount cfg ns)) = prev
    then
      ⟨mkEntries ns (planWithToc cfg ns (tocPageCount cfg ns)),
        planWithToc cfg ns (tocPageCount cfg ns), true⟩
    else if fuel = 0 then
      ⟨mkEntries ns (planWithToc cfg ns (tocPageCount cfg ns)),
        planWithToc cfg ns (tocPageCount cfg ns), false⟩
    else
      tocIterate cfg ns fuel
        (headingPageMap ns (planWithToc cfg ns (tocPageCount cfg ns)))

/-- Modelled from the spec: the full TOC build — a dry pass without TOC
pages (content from page 2) for the initial heading→page map, then at most
3 reconciliation passes. -/
def buildToc (cfg : PlanConfig) (ns : List DocumentNode) : TocResult :=
  tocIterate cfg ns 3 (headingPageMap ns (planNodes cfg ns 0 2 0 true))

theorem mkEntries_page (ns : List DocumentNode) (out : List Placement) :
    ∀ e ∈ mkEntries ns out, e.page = pageOfNode out e.node := by
  intro e he
  rcases List.mem_map.mp he with ⟨x, -, hx⟩
  subst hx
  cases h2 : x.2 <;> simp [h2]

theorem tocIterate_shape (cfg : PlanConfig) (ns : List DocumentNode) :
    ∀ (fuel : Nat) (prev : List (Nat × Nat)),
      (∃ out b, tocIterate cfg ns fuel prev = ⟨mkEntries ns out, out, b⟩) ∨
      tocIterate cfg ns fuel prev = ⟨[], [], false⟩ := by
  intro fuel
  induction fuel with
  | zero => intro prev; exact Or.inr rfl
  | succ fuel ih =>
    intro prev
    by_cases hm : headingPageMap ns
        (planWithToc cfg ns (tocPageCount cfg ns)) = prev
    · exact Or.inl ⟨planWithToc cfg ns (tocPageCount cfg ns), true,
        by rw [tocIterate, if_pos hm]⟩
    · by_cases hfu : fuel = 0
      · exact Or.inl ⟨planWithToc cfg ns (tocPageCount cfg ns), false,
          by rw [tocIterate, if_neg hm, if_pos hfu]⟩
      · have heq : tocIterate cfg ns (fuel + 1) prev =
            tocIterate cfg ns fuel (headingPageMap ns
              (planWithToc cfg ns (tocPageCount cfg ns))) := by
          rw [tocIterate, if_neg hm, if_neg hfu]
        rw [heq]
        exact ih _

/-- C5: when the TOC convergence loop terminates with an unchanged
heading→page map, every TOC entry's recorded page number equals the page
number of its target heading in the final page assignment used for
rendering. -/
theorem toc_entries_match_assignment (cfg : PlanConfig)
    (ns : List DocumentNode)
    (hconv : (buildToc cfg ns).converged = true) :
    ∀ e ∈ (buildToc cfg ns).entries,
      pageOfNode (buildToc cfg ns).assignment e.node = e.page := by
  intro e he
  rcases tocIterate_shape cfg ns 3 (headingPageMap ns
      (planNodes cfg ns 0 2 0 true)) with ⟨out, b, heq⟩ | heq
  · have hb : buildToc cfg ns = ⟨mkEntries ns out, out, b⟩ := heq
    rw [hb] at he ⊢
    exact (mkEntries_page ns out e he).symm
  · have hb : buildToc cfg ns = ⟨[], [], false⟩ := heq
    rw [hb] at hconv
    simp at hconv

/-- Witness for `toc_entries_match_assignment`: a converging build for a
one-heading document — the heading lands on page 3 (after the cover and one
TOC page), and so does its TOC entry. -/
theorem toc_entries_match_assignment_witness :
    pageOfNode (buildToc ⟨30, 2⟩ [DocumentNode.Heading 1 "Intro",
        DocumentNode.Paragraph 3]).assignment
      (TOCEntry.mk "Intro" 1 0 3).node = (TOCEntry.mk "Intro" 1 0 3).page :=
  toc_entries_match_assignment ⟨30, 2⟩
    [DocumentNode.Heading 1 "Intro", DocumentNode.Paragraph 3] (by decide)
    (TOCEntry.mk "Intro" 1 0 3) (by decide)

/-! ## Conversion request payload (`generatePdf` / `useApi.convert`) -/

/-- The `convertData` object `generatePdf` builds:
`{ title: formData.title, include_toc: formData.includeToc }`. -/
structure ConvertData where
  title : String
  include_toc : Bool
  deriving Repr, DecidableEq

/-- The field names of `convertData`, in the order `generatePdf` writes
them.  There is no page-format field. -/
def convertDataKeys : List String := ["title", "include_toc"]

/-- What the app component passes to `api.convert`: the ZIP blob produced
by `createZip` and the `convertData` object. -/
structure ConvertRequest where
  zipBlob : List ZipEntry
  convertData : ConvertData
  deriving Repr, DecidableEq

/-- `convert = async (formData) => client.post('api/v1/convert',
{ body: formData, ... })`: the function takes a single parameter and posts
exactly it as the body.  The caller's second argument (`convertData`) does
not correspond to any parameter, so only the ZIP blob is delivered. -/
def convertPostBody (req : ConvertRequest) : List ZipEntry :=
  req.zipBlob

/-- Modelled from the spec: the page-format validation of the transport
boundary (the FastAPI `app/` package is not in src) — only `"A4"` is
supported. -/
def validatePageFormat (pf : String) : Bool :=
  pf = "A4"

/-- The two stages a request passes through, in order. -/
inductive RequestStage where
  | validation
  | extraction
  deriving Repr, DecidableEq

/-- Modelled from the spec: request processing order — parameter
validation runs before extraction, so an unsupported page format fails at
the validation stage whatever the archive contains.  Returns the first
failing stage, `none` when both pass. -/
def firstFailingStage (pf : String) (archiveOk : Bool) :
    Option RequestStage :=
  if ¬ validatePageFormat pf then some RequestStage.validation
  else if ¬ archiveOk then some RequestStage.extraction
  else none

/-- C7 counterexample: for a concrete conversion request the delivered
body is the bare ZIP blob — `convertData` (title and TOC flag) is dropped
by `convert`'s one-parameter signature, and no page-format field exists in
the payload at all. -/
theorem convert_payload_counterexample :
    convertPostBody
        ⟨[⟨"doc.md", ⟨"doc.md", 5⟩⟩], ⟨"Title", true⟩⟩ =
      [⟨"doc.md", ⟨"doc.md", 5⟩⟩] ∧
    "page_format" ∉ convertDataKeys ∧
    "title" ∈ convertDataKeys ∧ "include_toc" ∈ convertDataKeys := by
  refine ⟨rfl, by decide, by decide, by decide⟩

/-- C7 (amended): the client builds a payload of the archive blob plus a
`convertData` object holding only the title and the TOC flag — no
page-format identifier — and `useApi.convert` actually posts only the
archive blob; on the (spec-modelled) server side, any page-format other
than `"A4"` fails validation before extraction begins. -/
theorem convert_payload_shape (req : ConvertRequest) (pf : String)
    (archiveOk : Bool) :
    convertPostBody req = req.zipBlob ∧
    convertDataKeys = ["title", "include_toc"] ∧
    "page_format" ∉ convertDataKeys ∧
    (pf ≠ "A4" →
      firstFailingStage pf archiveOk = some RequestStage.validation) ∧
    (validatePageFormat pf = true ↔ pf = "A4") := by
  refine ⟨rfl, rfl, by decide, ?_, ?_⟩
  · intro hpf
    simp [firstFailingStage, validatePageFormat, hpf]
  · simp [validatePageFormat]

/-- Witness for `convert_payload_shape` at the page format `"Letter"`. -/
theorem convert_payload_shape_witness :
    firstFailingStage "Letter" true = some RequestStage.validation :=
  ((convert_payload_shape ⟨[], ⟨"t", true⟩⟩ "Letter" true).2.2.2.1
    (by decide))

end MdToPdf
